import Mathlib

/-!
Verification of the LemmaTag tagger/lemmatizer (`lemmatag.py`) against its
natural-language specification.

The TensorFlow graph code is shallowly embedded: tensors become (nested)
lists, `tf.scan` followed by taking the last state becomes a left fold, and
framework primitives (`tf.transpose`, `tf.pad`, `tf.reverse_sequence`,
`tf.argmax`, `tf.clip_by_global_norm`, ...) are given their documented
semantics on rectangular list-of-list tensors.  Machine floats are modelled
as `ℚ` (exact arithmetic) except for the gradient-norm development, which
needs square roots and uses `ℝ`.
-/

namespace LemmaTag

/-! ### `find_first` (lemmatag.py lines 19-32)

`find_first(vec, val, transpose=True)` transposes `vec`, then runs `tf.scan`
over the rows of the transposed tensor, keeping for every column the smallest
step index at which `val` was seen (`vlen` when never seen), and returns the
last state of the scan.  `tf.transpose` is embedded as the index-swapping map
on rectangular tensors, and `tf.scan` + final-state selection as `foldl`. -/

def tfTranspose (m : List (List Int)) : List (List Int) :=
  (List.range (m.headD []).length).map fun t => m.map fun row => row.getD t 0

def ffStep (val : Int) (vlen : Nat) (st : Nat × List Nat) (col : List Int) : Nat × List Nat :=
  (st.1 + 1, List.zipWith (fun p c => min p (if c = val then st.1 else vlen)) st.2 col)

def find_first (vec : List (List Int)) (val : Int) (transp : Bool) : List Nat :=
  let v := if transp then tfTranspose vec else vec
  let vheight := (v.headD []).length
  let vlen := v.length
  (v.foldl (ffStep val vlen) (0, List.replicate vheight vlen)).2

/-- `self.lemma_prediction_lengths = 1 + find_first(self.lemma_predictions, eow)`
(lemmatag.py line 303). -/
def lemmaPredictionLengths (preds : List (List Int)) (eow : Int) : List Nat :=
  (find_first preds eow true).map (fun x => 1 + x)

/-- Reference value of one column scan: the minimum over the remaining rows of
(step index if the row holds `val` in column `w`, else `vlen`). -/
def colMin (val : Int) (vlen w : Nat) : Nat → List (List Int) → Nat
  | _, [] => vlen
  | i, row :: rest => min (if row.getD w 0 = val then i else vlen) (colMin val vlen w (i + 1) rest)

/-! ### Teacher forcing: target construction and decoder inputs
(lemmatag.py lines 120-124 and 236-274)

Lines 121-124 append `eow` to the end of every (left-aligned, padded) target
sequence by reversing each prefix, padding a column at the front, and
reversing again with the incremented lengths.  Line 238 builds the teacher
forcing decoder inputs `tf.pad(target_seqs, [[0,0],[1,0]],
constant_values=bow)[:, :-1]`, which `TrainingHelper` feeds to the decoder
step by step — at step `t` the decoder reads column `t` of these ground-truth
inputs, never its own previous prediction, while the loss (lines 276-284)
targets `target_seqs` (ground truth plus the appended `eow`). -/

def reverseSequence {α : Type _} (xs : List α) (len : Nat) : List α :=
  (xs.take len).reverse ++ xs.drop len

def appendEow (eow : Nat) (rows : List (List Nat)) (lens : List Nat) :
    List (List Nat) × List Nat :=
  let r1 := List.zipWith reverseSequence rows lens
  let r2 := r1.map (fun row => eow :: row)
  let lens2 := lens.map (· + 1)
  (List.zipWith reverseSequence r2 lens2, lens2)

def decoderInputs (bow : Nat) (target_seqs : List (List Nat)) : List (List Nat) :=
  target_seqs.map (fun row => (bow :: row).dropLast)

/-! ### Label smoothing for the tag loss (lemmatag.py lines 199-204) -/

/-- Line 201: `gold_labels = tf.one_hot(self.tags[:, :, i], tags) *
(1 - args.label_smoothing) + args.label_smoothing / tags`: the training target
distribution of one word for a tag head with `K` classes and gold class `g`. -/
def goldLabels (s : ℚ) (K : Nat) (g : Nat) : List ℚ :=
  (List.range K).map (fun j => (if j = g then 1 else 0) * (1 - s) + s / K)

/-! ### Gradient clipping (lemmatag.py lines 356-363) -/

noncomputable def globalNorm (gs : List ℝ) : ℝ :=
  Real.sqrt ((gs.map (fun g => g ^ 2)).sum)

/-- `tf.clip_by_global_norm(t_list, c)`: every entry is rescaled by
`c / max(global_norm, c)` (the documented semantics of the TensorFlow op). -/
noncomputable def clipByGlobalNorm (c : ℝ) (gs : List ℝ) : List ℝ :=
  gs.map (fun g => g * (c / max (globalNorm gs) c))

/-- Lines 361-363: the computed gradients pass through
`tf.clip_by_global_norm` only when `args.grad_clip` is set and truthy
(`if args.grad_clip:` — both `None` and `0.0` are falsy in Python);
otherwise they are applied unchanged. -/
noncomputable def applyGradClip (grad_clip : Option ℝ) (gs : List ℝ) : List ℝ :=
  match grad_clip with
  | none => gs
  | some c => if c = 0 then gs else clipByGlobalNorm c gs

/-! ### The gradient-stopped tag-to-lemma bridge
(lemmatag.py lines 220-232 and 352-363)

The claim concerns what reverse-mode differentiation computes through
`tf.stop_gradient`, so the differentiation semantics of the relevant graph
operations is embedded as a small expression language: `stopGrad` is the
identity in the forward pass and contributes zero gradient (the documented
semantics of `tf.stop_gradient`), and `deriv` is the derivative of an
expression with respect to one parameter variable. -/

inductive Expr : Type where
  | var : Nat → Expr
  | const : ℚ → Expr
  | add : Expr → Expr → Expr
  | mul : Expr → Expr → Expr
  | stopGrad : Expr → Expr

def eval (env : Nat → ℚ) : Expr → ℚ
  | .var w => env w
  | .const q => q
  | .add a b => eval env a + eval env b
  | .mul a b => eval env a * eval env b
  | .stopGrad a => eval env a

def deriv (env : Nat → ℚ) (v : Nat) : Expr → ℚ
  | .var w => if w = v then 1 else 0
  | .const _ => 0
  | .add a b => deriv env v a + deriv env v b
  | .mul a b => deriv env v a * eval env b + eval env a * deriv env v b
  | .stopGrad _ => 0

/-- An expression has no gradient path into the tagger parameters (`isTag`)
when every tagger variable in it occurs only beneath `stopGrad`. -/
def noTagPath (isTag : Nat → Bool) : Expr → Bool
  | .var w => !(isTag w)
  | .const _ => true
  | .add a b => noTagPath isTag a && noTagPath isTag b
  | .mul a b => noTagPath isTag a && noTagPath isTag b
  | .stopGrad _ => true

/-- Lines 221-224:
`tag_features = tf.layers.dense(tf.stop_gradient(self.tag_outputs), ...)`
(scalar rendering of the dense bridge: `w * stop_gradient(logits) + b`). -/
def tagFeatures (tagOutputs w b : Expr) : Expr :=
  .add (.mul w (.stopGrad tagOutputs)) b

/-- Line 353:
`loss = loss_tag + loss_lem * args.loss_lem_w + loss_sense * args.loss_sense_w`. -/
def totalLoss (lossTag lossLem lossSense : Expr) (wLem wSense : ℚ) : Expr :=
  .add lossTag (.add (.mul lossLem (.const wLem)) (.mul lossSense (.const wSense)))

/-! ### The multi-head tag classifier (lemmatag.py lines 191-216)

For every head `i` the code applies a fresh dense output layer to the
sentence-level RNN outputs, predicts `tf.argmax(output_layer, axis=2)`, and
finally `tf.stack`s the per-head predictions along a new last axis.
`tf.argmax` returns the smallest index attaining the maximum. -/

def dot (w x : List ℚ) : ℚ := (List.zipWith (· * ·) w x).sum

def denseLayer (W : List (List ℚ)) (b : List ℚ) (x : List ℚ) : List ℚ :=
  List.zipWith (fun wr bi => dot wr x + bi) W b

def argmax : List ℚ → Nat
  | [] => 0
  | x :: rest =>
    match rest with
    | [] => 0
    | _ :: _ => if x < rest.getD (argmax rest) 0 then argmax rest + 1 else 0

def headLogits (Wb : List (List ℚ) × List ℚ) (rnn : List (List (List ℚ))) :
    List (List (List ℚ)) :=
  rnn.map (fun srow => srow.map (fun x => denseLayer Wb.1 Wb.2 x))

def headPredictions (Wb : List (List ℚ) × List ℚ) (rnn : List (List (List ℚ))) :
    List (List Nat) :=
  (headLogits Wb rnn).map (fun srow => srow.map argmax)

/-- `tf.stack(ms, axis=-1)` on a list of equishaped `[S, W]` tensors. -/
def stackLast (ms : List (List (List Nat))) : List (List (List Nat)) :=
  (List.range (ms.headD []).length).map fun s =>
    (List.range ((ms.headD []).getD s []).length).map fun w =>
      ms.map fun m => (m.getD s []).getD w 0

def tagPredictions (heads : List (List (List ℚ) × List ℚ)) (rnn : List (List (List ℚ))) :
    List (List (List Nat)) :=
  stackLast (heads.map (fun h => headPredictions h rnn))

/-! ### Beam-search lemma prediction (lemmatag.py lines 287-303 and 35-43)

The beam search itself lives in `tf.contrib.seq2seq.BeamSearchDecoder`
(framework code, not part of this repository).  Modelled from the spec: the
decoder "retains the top-k partial sequences by score at each decoding step",
over an abstract score function on partial character sequences.  What the
repository adds on top is embedded from source: beam 0 of the decoded
`predicted_ids` is the lemma (line 302) and its recorded length is
`1 + find_first(lemma_predictions, eow)` (line 303, via the
`FixedBeamSearchDecoder.finalize` length fix). -/

def expandBeams (V : Nat) (beams : List (List Nat)) : List (List Nat) :=
  beams.flatMap fun b => (List.range V).map fun c => b ++ [c]

/-- Descending-score order on partial sequences. -/
def beamGE (score : List Nat → ℚ) (a b : List Nat) : Prop := score b ≤ score a

instance (score : List Nat → ℚ) : DecidableRel (beamGE score) := fun a b =>
  inferInstanceAs (Decidable (score b ≤ score a))

def topK (k : Nat) (score : List Nat → ℚ) (cands : List (List Nat)) : List (List Nat) :=
  (List.insertionSort (beamGE score) cands).take k

def beamStep (k V : Nat) (score : List Nat → ℚ) (beams : List (List Nat)) :
    List (List Nat) :=
  topK k score (expandBeams V beams)

def beamRun (k V : Nat) (score : List Nat → ℚ) : Nat → List (List Nat)
  | 0 => [[]]
  | n + 1 => beamStep k V score (beamRun k V score n)

/-- Beam 0 of the final predicted ids:
`self.lemma_predictions = dec_outputs.predicted_ids[:, :, 0]`. -/
def beamBest (k V : Nat) (score : List Nat → ℚ) (n : Nat) : List Nat :=
  (beamRun k V score n).headD []

/-! ### Bounded inference decoding (lemmatag.py lines 287-303)

Modelled from the spec: `tf.contrib.seq2seq.dynamic_decode(decoder,
maximum_iterations=m)` is framework code; it runs the decoding loop for at
most `m` steps, each emitting one character, stopping early once the helper
reports `eow`.  Both the greedy branch (line 292) and the beam-search branch
(line 301) pass `maximum_iterations=tf.reduce_max(self.charseq_lens) + 10`. -/

def greedyDecode (next : List Nat → Nat) (eow : Nat) : Nat → List Nat → List Nat
  | 0, acc => acc
  | fuel + 1, acc =>
    if next acc = eow then acc ++ [eow]
    else greedyDecode next eow fuel (acc ++ [next acc])

def maxIterations (charseq_lens : List Nat) : Nat :=
  charseq_lens.foldr max 0 + 10

/-! ### `Network.predict` (lemmatag.py lines 452-480)

Per batch, `predict` fetches the tag predictions `tp`, the per-word lemma
character predictions `lp` with lengths `lpl`, and the sense predictions.  It
decodes the tags with `args.tags.decode(tp)` (one vocabulary word per padded
word slot of every sentence) and assembles one lemma per actual word form,
slicing `length` flattened word entries off `lp`/`lpl`/`senses` per
sentence. -/

/-- Line 470: `''.join(alphabet[lp[i][j]] for j in range(lpl[i] - 1))`. -/
def wordLemma (alphabet : List String) (row : List Nat) (len : Nat) : String :=
  String.join ((row.take (len - 1)).map (fun cid => alphabet.getD cid ""))

/-- Lines 471-475: the sense handling appends `-<sense word>` exactly when
sense prediction is separate (`builtin_sense` off), the predicted sense index
is positive and the sense word is non-empty and not `"<pad>"`. -/
def senseSuffix (sense_words : List String) (builtin : Bool) (sense : Nat) : String :=
  if builtin then ""
  else
    let sword := sense_words.getD sense ""
    if 0 < sense ∧ sword ≠ "" ∧ sword ≠ "<pad>" then "-" ++ sword else ""

/-- Lines 467-476: per-sentence lemma assembly over the flattened word
arrays, with `lp, lpl, senses = lp[length:], lpl[length:], senses[length:]`
after each sentence. -/
def predictLemmas (alphabet sense_words : List String) (builtin : Bool) :
    List Nat → List (List Nat) → List Nat → List Nat → List (List String)
  | [], _, _, _ => []
  | len :: rest, lp, lpl, senses =>
    ((List.range len).map fun i =>
      wordLemma alphabet (lp.getD i []) (lpl.getD i 0)
        ++ senseSuffix sense_words builtin (senses.getD i 0))
      :: predictLemmas alphabet sense_words builtin rest (lp.drop len) (lpl.drop len)
          (senses.drop len)

/-- Line 466 plus `WholeTags.decode`/`CharTags.decode` (lines 496-501,
554-559): each decoded tag is the training tag-vocabulary word at component 0
of the prediction, for every (padded) word position of every sentence. -/
def tagsDecode (words : List String) (tp : List (List (List Nat))) : List (List String) :=
  tp.map fun sentence => sentence.map fun tag => words.getD (tag.headD 0) ""

/-- `Network.predict` on one batch, returning `(lemmas, tags)`. -/
def predict (words alphabet sense_words : List String) (builtin : Bool)
    (sentence_lens : List Nat) (tp : List (List (List Nat)))
    (lp : List (List Nat)) (lpl senses : List Nat) :
    List (List String) × List (List String) :=
  (predictLemmas alphabet sense_words builtin sentence_lens lp lpl senses,
   tagsDecode words tp)

/-! ### `CharTags` encode/decode (lemmatag.py lines 504-559)

Strings are modelled as `List Char`.  `CharTags.__init__` builds, for every
training tag of the canonical length, a cache entry whose component 0 is the
tag id and whose component `i + 1` is the id of the tag's `i`-th character in
the `i`-th position alphabet (`"<unk>"` holds id 0; it is modelled as the
absent key, ids of inserted keys start at 1 in insertion order).  `encode`
uses the cached entry when the tag id is cached, and otherwise writes the tag
id into component 0 and reconstructs the components from the tag's character
sequence (id 0 for anything unknown).  `decode` looks component 0 back up in
the training tag vocabulary. -/

/-- `_alphabet_maps[i].get / insertion`: the id of an existing key is one plus
its insertion position; a new key is appended and gets the next id. -/
def mapAdd (m : List (List Char)) (key : List Char) : List (List Char) × Nat :=
  if key ∈ m then (m, 1 + m.indexOf key) else (m ++ [key], 1 + m.length)

/-- The loop `for i in range(self._taglen)` of `CharTags.__init__` for one
tag: threads the per-position alphabets and collects `entry[i + 1]`. -/
def addTag : List (List (List Char)) → List Char → List (List (List Char)) × List Nat
  | [], _ => ([], [])
  | m :: ms, [] => (m :: ms, [])
  | m :: ms, c :: cs =>
    let p := mapAdd m [c]
    let q := addTag ms cs
    (p.1 :: q.1, p.2 :: q.2)

/-- `CharTags.__init__` (lines 515-528): fold over the enumerated training
tag vocabulary, caching an entry `tag_id :: components` for every tag of the
canonical length. -/
def buildCT (words : List (List Char)) (taglen : Nat) :
    List (List (List Char)) × List (Nat × List Nat) :=
  words.enum.foldl
    (fun st p =>
      if p.2.length = taglen then
        ((addTag st.1 p.2).1, st.2 ++ [(p.1, p.1 :: (addTag st.1 p.2).2)])
      else st)
    (List.replicate taglen [], [])

/-- One cell of `CharTags.encode` (lines 539-551). -/
def encodeCell (taglen : Nat) (maps : List (List (List Char)))
    (cache : List (Nat × List Nat)) (trainAlphabet : List (List Char))
    (tag_id : Nat) (seq : List Nat) : List Nat :=
  match cache.lookup tag_id with
  | some e => e
  | none =>
    if seq.length = taglen then
      tag_id :: (List.range taglen).map (fun kk =>
        if trainAlphabet.getD
            (if seq.getD kk 0 < trainAlphabet.length then seq.getD kk 0 else 0) []
            ∈ maps.getD kk []
        then 1 + (maps.getD kk []).indexOf
          (trainAlphabet.getD
            (if seq.getD kk 0 < trainAlphabet.length then seq.getD kk 0 else 0) [])
        else 0)
    else
      tag_id :: List.replicate taglen 0

/-- `CharTags.encode` (lines 537-552) over the `seq_ids.shape` grid. -/
def encodeCT (words : List (List Char)) (taglen : Nat)
    (trainAlphabet : List (List Char)) (tag_ids seq_ids : List (List Nat))
    (seqs : List (List Nat)) : List (List (List Nat)) :=
  List.zipWith
    (fun trow srow =>
      List.zipWith
        (fun tid sid =>
          encodeCell taglen (buildCT words taglen).1 (buildCT words taglen).2
            trainAlphabet tid (seqs.getD sid []))
        trow srow)
    tag_ids seq_ids

/-- `CharTags.decode` (lines 554-559). -/
def decodeCT (words : List (List Char)) (tags : List (List (List Nat))) :
    List (List (List Char)) :=
  tags.map fun sentence => sentence.map fun tag => words.getD (tag.headD 0) []

/-! ### Theorems -/

/-! ### Generic list helpers -/

theorem getD_eq_getElem {α : Type _} (l : List α) {i : Nat} (d : α) (h : i < l.length) :
    l.getD i d = l[i] := by
  rw [List.getD_eq_getElem?_getD, List.getElem?_eq_getElem h, Option.getD_some]

theorem getD_map_lt {α β : Type _} (f : α → β) (l : List α) {i : Nat} (d : β) (e : α)
    (h : i < l.length) : (l.map f).getD i d = f (l.getD i e) := by
  rw [getD_eq_getElem _ _ (by simpa using h), getD_eq_getElem _ _ h, List.getElem_map]

theorem getD_zipWith_lt {α β γ : Type _} (f : α → β → γ) (as : List α) (bs : List β)
    {i : Nat} (d : γ) (da : α) (db : β) (ha : i < as.length) (hb : i < bs.length) :
    (List.zipWith f as bs).getD i d = f (as.getD i da) (bs.getD i db) := by
  rw [getD_eq_getElem _ _ (by simp [List.length_zipWith]; omega),
    getD_eq_getElem _ _ ha, getD_eq_getElem _ _ hb, List.getElem_zipWith]

theorem getD_range_lt {n i : Nat} (d : Nat) (h : i < n) : (List.range n).getD i d = i := by
  rw [getD_eq_getElem _ _ (by simpa using h), List.getElem_range]

theorem getD_drop {α : Type _} (l : List α) (n i : Nat) (d : α) :
    (l.drop n).getD i d = l.getD (n + i) d := by
  rw [List.getD_eq_getElem?_getD, List.getD_eq_getElem?_getD, List.getElem?_drop]

example : find_first [[0, 5], [5, 5]] 5 true = [1, 0] := by decide

example : find_first [[1, 2]] 9 true = [2] := by decide

example : lemmaPredictionLengths [[7, 3, 3], [3, 7, 3]] 3 = [2, 1] := by decide

theorem colMin_le (val : Int) (vlen w : Nat) :
    ∀ (rows : List (List Int)) (i : Nat), colMin val vlen w i rows ≤ vlen
  | [], _ => Nat.le_refl _
  | _ :: rest, i =>
      Nat.le_trans (Nat.min_le_right _ _) (colMin_le val vlen w rest (i + 1))

theorem le_colMin (val : Int) (vlen w : Nat) :
    ∀ (rows : List (List Int)) (i : Nat), i + rows.length ≤ vlen →
      i ≤ colMin val vlen w i rows
  | [], i, h => by simpa [colMin] using h
  | r :: rest, i, h => by
      have h2 : i + 1 ≤ colMin val vlen w (i + 1) rest :=
        le_colMin val vlen w rest (i + 1) (by simp at h; omega)
      have h3 : i ≤ vlen := by simp at h; omega
      rw [colMin]
      refine Nat.le_min.mpr ⟨?_, by omega⟩
      split
      · exact Nat.le_refl i
      · exact h3

theorem colMin_findIdx (val : Int) (vlen w : Nat) :
    ∀ (rows : List (List Int)) (i : Nat), i + rows.length ≤ vlen →
      colMin val vlen w i rows =
        if (rows.map (fun r => r.getD w 0)).findIdx (· == val) < rows.length
        then i + (rows.map (fun r => r.getD w 0)).findIdx (· == val)
        else vlen
  | [], i, h => by simp [colMin]
  | r :: rest, i, h => by
      by_cases hv : r.getD w 0 = val
      · have h1 : i ≤ colMin val vlen w (i + 1) rest :=
          Nat.le_trans (Nat.le_succ i) (le_colMin val vlen w rest (i + 1) (by simp at h; omega))
        have hb : (r.getD w 0 == val) = true := by simpa using hv
        rw [colMin, if_pos hv, Nat.min_eq_left h1, List.map_cons, List.findIdx_cons, hb,
          cond_true, List.length_cons, if_pos (Nat.succ_pos _)]
        omega
      · have h2 : colMin val vlen w (i + 1) rest ≤ vlen := colMin_le val vlen w rest (i + 1)
        have hb : (r.getD w 0 == val) = false := by simpa using hv
        rw [colMin, if_neg hv, Nat.min_eq_right h2,
          colMin_findIdx val vlen w rest (i + 1) (by simp at h; omega),
          List.map_cons, List.findIdx_cons, hb, cond_false, List.length_cons]
        by_cases h3 : (rest.map (fun r => r.getD w 0)).findIdx (· == val) < rest.length
        · rw [if_pos h3, if_pos (by omega)]; omega
        · rw [if_neg h3, if_neg (by omega)]

theorem ffFold_length (val : Int) (vlen : Nat) :
    ∀ (rows : List (List Int)) (i : Nat) (poss : List Nat),
      (∀ r ∈ rows, poss.length ≤ r.length) →
      ((rows.foldl (ffStep val vlen) (i, poss)).2).length = poss.length
  | [], _, _, _ => rfl
  | r :: rest, i, poss, hr => by
      have hlen : (List.zipWith (fun p c => min p (if c = val then i else vlen)) poss r).length
          = poss.length := by
        rw [List.length_zipWith]; exact Nat.min_eq_left (hr r (by simp))
      rw [List.foldl_cons]
      show ((rest.foldl (ffStep val vlen) (i + 1, _)).2).length = _
      rw [ffFold_length val vlen rest (i + 1) _ (fun rr hrr => by
        rw [hlen]; exact hr rr (List.mem_cons_of_mem _ hrr)), hlen]

theorem ffFold_getD (val : Int) (vlen : Nat) :
    ∀ (rows : List (List Int)) (i : Nat) (poss : List Nat) (w : Nat),
      w < poss.length → (∀ r ∈ rows, poss.length ≤ r.length) → (∀ p ∈ poss, p ≤ vlen) →
      ((rows.foldl (ffStep val vlen) (i, poss)).2).getD w 0
        = min (poss.getD w 0) (colMin val vlen w i rows)
  | [], i, poss, w, hw, _, hb => by
      have h1 : poss.getD w 0 ≤ vlen := by
        rw [getD_eq_getElem _ _ hw]; exact hb _ (List.getElem_mem hw)
      simpa [colMin] using Nat.min_eq_left h1
  | r :: rest, i, poss, w, hw, hr, hb => by
      have hple : poss.length ≤ r.length := hr r (by simp)
      have hlen : (List.zipWith (fun p c => min p (if c = val then i else vlen)) poss r).length
          = poss.length := by
        rw [List.length_zipWith]; exact Nat.min_eq_left hple
      rw [List.foldl_cons]
      show ((rest.foldl (ffStep val vlen) (i + 1, _)).2).getD w 0 = _
      rw [ffFold_getD val vlen rest (i + 1) _ w (by rw [hlen]; exact hw)
        (fun rr hrr => by rw [hlen]; exact hr rr (List.mem_cons_of_mem _ hrr))
        (by
          intro p hp
          obtain ⟨j, hj, rfl⟩ := List.mem_iff_getElem.mp hp
          rw [List.getElem_zipWith]
          have hj2 : j < poss.length := by
            rw [List.length_zipWith] at hj
            exact Nat.lt_of_lt_of_le hj inf_le_left
          exact Nat.le_trans (Nat.min_le_left _ _) (hb _ (List.getElem_mem hj2)))]
      rw [getD_zipWith_lt _ _ _ _ 0 0 hw (Nat.lt_of_lt_of_le hw hple), colMin]
      exact Nat.min_assoc _ _ _

/-- Core computation of `find_first` on a rectangular tensor: the result has
one entry per input row, and entry `w` is the index of the first occurrence of
`val` in row `w` (the length `T` when absent, which is what `findIdx`
returns). -/
theorem find_first_eq (vec : List (List Int)) (val : Int) (T w : Nat)
    (hrect : ∀ r ∈ vec, r.length = T) (hT : 0 < T) (hw : w < vec.length) :
    (find_first vec val true).length = vec.length ∧
    (find_first vec val true).getD w 0 = (vec.getD w []).findIdx (· == val) := by
  have hne : vec ≠ [] := by
    intro h; rw [h] at hw; simp at hw
  have hhead : (vec.headD []).length = T := by
    cases vec with
    | nil => exact absurd rfl hne
    | cons a l => exact hrect a (by simp)
  have hrow_mem : vec.getD w [] ∈ vec := by
    rw [getD_eq_getElem _ _ hw]; exact List.getElem_mem hw
  have hrowlen : (vec.getD w []).length = T := hrect _ hrow_mem
  have hTl : (tfTranspose vec).length = T := by
    rw [tfTranspose, List.length_map, List.length_range, hhead]
  have hTwidth : ∀ r ∈ tfTranspose vec, r.length = vec.length := by
    intro r hr
    simp only [tfTranspose, List.mem_map, List.mem_range] at hr
    obtain ⟨t, _, rfl⟩ := hr
    simp
  have hTheadD : ((tfTranspose vec).headD []).length = vec.length := by
    have h0 : 0 < (tfTranspose vec).length := by omega
    rw [show (tfTranspose vec).headD [] = (tfTranspose vec).getD 0 [] from by
      cases tfTranspose vec <;> rfl]
    rw [getD_eq_getElem _ _ h0]
    exact hTwidth _ (List.getElem_mem h0)
  have hcol : (tfTranspose vec).map (fun r => r.getD w 0) = vec.getD w [] := by
    apply List.ext_getElem
    · rw [List.length_map, hTl, hrowlen]
    · intro t h1 h2
      simp only [tfTranspose, List.getElem_map, List.getElem_range]
      rw [getD_map_lt (fun row => row.getD t 0) vec 0 ([] : List Int) hw,
        getD_eq_getElem _ _ h2]
  -- unfold find_first on the transposed tensor
  have hff : find_first vec val true
      = ((tfTranspose vec).foldl (ffStep val T) (0, List.replicate vec.length T)).2 := by
    simp only [find_first, if_true]
    rw [hTheadD, hTl]
  have hlen : (find_first vec val true).length = vec.length := by
    rw [hff, ffFold_length val T _ 0 _ (fun r hr => by
      rw [List.length_replicate, hTwidth r hr])]
    simp
  have hres : (find_first vec val true).getD w 0
      = (vec.getD w []).findIdx (· == val) := by
    rw [hff, ffFold_getD val T _ 0 _ w (by simpa using hw)
      (fun r hr => by rw [List.length_replicate, hTwidth r hr])
      (by intro p hp; rw [List.eq_of_mem_replicate hp])]
    rw [colMin_findIdx val T w _ 0 (by rw [hTl]; omega), hcol, hTl]
    have hgd : (List.replicate vec.length T).getD w 0 = T := by
      rw [getD_eq_getElem _ _ (by simpa using hw), List.getElem_replicate]
    rw [hgd]
    by_cases hcase : (vec.getD w []).findIdx (· == val) < T
    · rw [if_pos hcase]; omega
    · rw [if_neg hcase]
      have := @List.findIdx_le_length Int (· == val) (vec.getD w [])
      rw [hrowlen] at this
      omega
  exact ⟨hlen, hres⟩

/-- C8: `find_first` with `transpose=True` returns, for each row `w` of the
input (a column of `n = T` rows after transposition), the smallest step index
holding `val`, or the column length `T` when `val` does not occur; and
`lemma_prediction_lengths` is one plus that value. -/
theorem find_first_correct (vec : List (List Int)) (val : Int) (T w : Nat)
    (hrect : ∀ r ∈ vec, r.length = T) (hT : 0 < T) (hw : w < vec.length) :
    (find_first vec val true).length = vec.length ∧
    (find_first vec val true).getD w 0 ≤ T ∧
    (∀ t, t < (find_first vec val true).getD w 0 → (vec.getD w []).getD t 0 ≠ val) ∧
    ((find_first vec val true).getD w 0 < T →
      (vec.getD w []).getD ((find_first vec val true).getD w 0) 0 = val) ∧
    ((∀ t, t < T → (vec.getD w []).getD t 0 ≠ val) → (find_first vec val true).getD w 0 = T) ∧
    (lemmaPredictionLengths vec val).getD w 0 = 1 + (find_first vec val true).getD w 0 := by
  obtain ⟨hlen, hres⟩ := find_first_eq vec val T w hrect hT hw
  have hrow_mem : vec.getD w [] ∈ vec := by
    rw [getD_eq_getElem _ _ hw]; exact List.getElem_mem hw
  have hrowlen : (vec.getD w []).length = T := hrect _ hrow_mem
  have hle : (vec.getD w []).findIdx (· == val) ≤ T := by
    have := @List.findIdx_le_length Int (· == val) (vec.getD w [])
    omega
  refine ⟨hlen, by rw [hres]; exact hle, ?_, ?_, ?_, ?_⟩
  · intro t ht
    rw [hres] at ht
    have htT : t < T := by omega
    rw [getD_eq_getElem _ _ (by omega)]
    have := List.not_of_lt_findIdx ht
    simpa using this
  · intro hlt
    rw [hres] at hlt ⊢
    rw [getD_eq_getElem _ _ (by omega)]
    have := @List.findIdx_getElem Int (· == val) (vec.getD w []) (by omega)
    simpa using this
  · intro habs
    rw [hres]
    rw [← hrowlen]
    apply List.findIdx_eq_length.mpr
    intro x hx
    obtain ⟨n, hn, rfl⟩ := List.mem_iff_getElem.mp hx
    have := habs n (by omega)
    rw [getD_eq_getElem _ _ hn] at this
    simpa using this
  · rw [lemmaPredictionLengths, getD_map_lt _ _ _ 0 (by omega), hres]

/-- Witness for C8 at a concrete input. -/
theorem find_first_correct_witness :
    ((∀ r ∈ [[(0 : Int), 5], [5, 5]], r.length = 2) ∧ 0 < 2 ∧
      0 < ([[(0 : Int), 5], [5, 5]]).length) ∧
    (find_first [[(0 : Int), 5], [5, 5]] 5 true).getD 0 0 ≤ 2 :=
  ⟨⟨by decide, by decide, by decide⟩,
    (find_first_correct [[(0 : Int), 5], [5, 5]] 5 2 0 (by decide) (by decide)
      (by decide)).2.1⟩

example : appendEow 9 [[1, 2, 0, 0]] [2] = ([[1, 2, 9, 0, 0]], [3]) := by decide

example : decoderInputs 8 [[1, 2, 9, 0]] = [[8, 1, 2, 9]] := by decide

theorem appendEow_one_row (eow len : Nat) (r : List Nat) (h : len ≤ r.length) :
    reverseSequence (eow :: reverseSequence r len) (len + 1)
      = r.take len ++ eow :: r.drop len := by
  have hrl : (eow :: (r.take len).reverse).length = len + 1 := by
    simp [List.length_take]
    omega
  rw [reverseSequence, reverseSequence, ← List.cons_append,
    List.take_left' hrl, List.drop_left' hrl]
  simp

theorem appendEow_getD (eow : Nat) (rows : List (List Nat)) (lens : List Nat) (w : Nat)
    (hw : w < rows.length) (hwl : w < lens.length) :
    (appendEow eow rows lens).1.getD w []
        = reverseSequence (eow :: reverseSequence (rows.getD w []) (lens.getD w 0))
            (lens.getD w 0 + 1) ∧
    (appendEow eow rows lens).2.getD w 0 = lens.getD w 0 + 1 := by
  constructor
  · show (List.zipWith reverseSequence
      ((List.zipWith reverseSequence rows lens).map (fun row => eow :: row))
      (lens.map (· + 1))).getD w [] = _
    rw [getD_zipWith_lt _ _ _ _ [] 0
      (by rw [List.length_map, List.length_zipWith]; exact lt_min hw hwl)
      (by rw [List.length_map]; exact hwl)]
    rw [getD_map_lt _ _ _ ([] : List Nat)
      (by rw [List.length_zipWith]; exact lt_min hw hwl)]
    rw [getD_zipWith_lt _ _ _ _ [] 0 hw hwl, getD_map_lt _ _ _ 0 hwl]
  · show (lens.map (· + 1)).getD w 0 = _
    rw [getD_map_lt _ _ _ 0 hwl]

/-- C3: the lemma decoder is teacher-forced.  For word `w` with ground-truth
characters `r.take len`: the loss-target length is `len + 1`; the loss targets
are the ground-truth characters with `eow` appended; the decoder input at step
0 is `bow` and at every later step `t ≤ len` it is the ground-truth character
at position `t - 1` (a function of the targets only, never of a decoder
prediction). -/
theorem teacher_forcing (bow eow : Nat) (rows : List (List Nat)) (lens : List Nat) (w : Nat)
    (hw : w < rows.length) (hwl : w < lens.length)
    (hlen : lens.getD w 0 ≤ (rows.getD w []).length) :
    (appendEow eow rows lens).2.getD w 0 = lens.getD w 0 + 1 ∧
    ((appendEow eow rows lens).1.getD w []).take (lens.getD w 0 + 1)
      = (rows.getD w []).take (lens.getD w 0) ++ [eow] ∧
    ((decoderInputs bow (appendEow eow rows lens).1).getD w []).getD 0 0 = bow ∧
    (∀ t, 1 ≤ t → t ≤ lens.getD w 0 →
      ((decoderInputs bow (appendEow eow rows lens).1).getD w []).getD t 0
        = (rows.getD w []).getD (t - 1) 0) := by
  obtain ⟨hrow, hlen2⟩ := appendEow_getD eow rows lens w hw hwl
  set len := lens.getD w 0 with hlendef
  set r := rows.getD w [] with hrdef
  have htl : (r.take len).length = len := by rw [List.length_take]; omega
  have hfull : (appendEow eow rows lens).1.getD w [] = r.take len ++ eow :: r.drop len := by
    rw [hrow, appendEow_one_row eow len r hlen]
  have hdec : (decoderInputs bow (appendEow eow rows lens).1).getD w []
      = (bow :: (r.take len ++ eow :: r.drop len)).dropLast := by
    rw [decoderInputs, getD_map_lt _ _ _ ([] : List Nat)
      (by
        show w < (List.zipWith reverseSequence _ _).length
        rw [List.length_zipWith, List.length_map, List.length_zipWith, List.length_map]
        exact lt_min (lt_min hw hwl) hwl), hfull]
  have hlendec : (bow :: (r.take len ++ eow :: r.drop len)).length = r.length + 2 := by
    simp [htl]
    omega
  refine ⟨hlen2, ?_, ?_, ?_⟩
  · rw [hfull, show len + 1 = (r.take len).length + 1 from by omega, List.take_append]
    simp
  · rw [hdec, List.getD_eq_getElem?_getD, List.getElem?_dropLast,
      if_pos (by rw [hlendec]; omega)]
    simp
  · intro t h1 h2
    rw [hdec, List.getD_eq_getElem?_getD, List.getElem?_dropLast,
      if_pos (by rw [hlendec]; omega)]
    obtain ⟨s, rfl⟩ : ∃ s, t = s + 1 := ⟨t - 1, by omega⟩
    rw [List.getElem?_cons_succ, List.getElem?_append, if_pos (by omega),
      List.getElem?_take, if_pos (show s < len by omega),
      show s + 1 - 1 = s from rfl, List.getD_eq_getElem?_getD]

/-- Witness for C3 at a concrete input. -/
theorem teacher_forcing_witness :
    (0 < ([[1, 2, 0, 0]] : List (List Nat)).length ∧ 0 < ([2] : List Nat).length ∧
      ([2] : List Nat).getD 0 0 ≤ (([[1, 2, 0, 0]] : List (List Nat)).getD 0 []).length) ∧
    (appendEow 9 [[1, 2, 0, 0]] [2]).2.getD 0 0 = ([2] : List Nat).getD 0 0 + 1 :=
  ⟨⟨by decide, by decide, by decide⟩,
    (teacher_forcing 8 9 [[1, 2, 0, 0]] [2] 0 (by decide) (by decide) (by decide)).1⟩

/-- C4: with smoothing `s ∈ (0,1)` and `K` classes, the target distribution
blends the one-hot gold label with the uniform distribution: the gold class
receives `(1-s) + s/K`, every other class `s/K`, and the entries sum to 1. -/
theorem label_smoothing_correct (s : ℚ) (K g : Nat)
    (hs0 : 0 < s) (hs1 : s < 1) (hg : g < K) :
    (goldLabels s K g).length = K ∧
    (goldLabels s K g).getD g 0 = (1 - s) + s / K ∧
    (∀ j, j < K → j ≠ g → (goldLabels s K g).getD j 0 = s / K) ∧
    (goldLabels s K g).sum = 1 := by
  have hK : (K : ℚ) ≠ 0 := by
    have : K ≠ 0 := by omega
    exact_mod_cast this
  refine ⟨by simp [goldLabels], ?_, ?_, ?_⟩
  · rw [goldLabels, getD_map_lt _ _ _ 0 (by simpa using hg), getD_range_lt _ hg]
    simp
  · intro j hj hne
    rw [goldLabels, getD_map_lt _ _ _ 0 (by simpa using hj), getD_range_lt _ hj,
      if_neg hne]
    ring
  · have hsum : (goldLabels s K g).sum
        = ∑ j ∈ Finset.range K, ((if j = g then (1 : ℚ) else 0) * (1 - s) + s / K) := rfl
    rw [hsum, Finset.sum_add_distrib, Finset.sum_const, Finset.card_range]
    have h1 : ∑ j ∈ Finset.range K, (if j = g then (1 : ℚ) else 0) * (1 - s)
        = ∑ j ∈ Finset.range K, (if j = g then (1 - s : ℚ) else 0) := by
      apply Finset.sum_congr rfl
      intro j _
      by_cases h : j = g <;> simp [h]
    rw [h1, Finset.sum_ite_eq' (Finset.range K) g (fun _ => (1 - s : ℚ)),
      if_pos (Finset.mem_range.mpr hg), nsmul_eq_mul, mul_div_cancel₀ _ hK]
    ring

/-- Witness for C4 at concrete smoothing 1/10, 3 classes, gold class 1. -/
theorem label_smoothing_correct_witness :
    ((0 : ℚ) < 1 / 10 ∧ (1 : ℚ) / 10 < 1 ∧ 1 < 3) ∧
    (goldLabels (1 / 10) 3 1).sum = 1 :=
  ⟨⟨by norm_num, by norm_num, by norm_num⟩,
    (label_smoothing_correct (1 / 10) 3 1 (by norm_num) (by norm_num)
      (by norm_num)).2.2.2⟩

theorem sumSq_nonneg (gs : List ℝ) : 0 ≤ (gs.map (fun g => g ^ 2)).sum := by
  apply List.sum_nonneg
  intro x hx
  obtain ⟨g, _, rfl⟩ := List.mem_map.mp hx
  exact sq_nonneg g

theorem globalNorm_nonneg (gs : List ℝ) : 0 ≤ globalNorm gs := Real.sqrt_nonneg _

theorem globalNorm_map_mul (gs : List ℝ) (a : ℝ) :
    globalNorm (gs.map (fun g => g * a)) = globalNorm gs * |a| := by
  rw [globalNorm, globalNorm, List.map_map]
  have h1 : ((fun g => g ^ 2) ∘ fun g => g * a) = fun g => g ^ 2 * a ^ 2 := by
    funext g
    simp [mul_pow]
  have h2 : (gs.map (fun g => g ^ 2 * a ^ 2)).sum = (gs.map (fun g => g ^ 2)).sum * a ^ 2 := by
    induction gs with
    | nil => simp
    | cons x xs ih => simp [ih]; ring
  rw [h1, h2, Real.sqrt_mul (sumSq_nonneg gs), Real.sqrt_sq_eq_abs]

/-- C6: with `grad_clip` set to `c > 0`, the applied gradients always have
global norm at most `c`; gradients whose global norm exceeds `c` are rescaled
to have norm exactly `c`, gradients at or below the threshold pass unchanged,
and with `grad_clip` unset no rescaling happens at all. -/
theorem grad_clip_correct (c : ℝ) (gs : List ℝ) (hc : 0 < c) :
    applyGradClip none gs = gs ∧
    (globalNorm gs ≤ c → applyGradClip (some c) gs = gs) ∧
    (c < globalNorm gs → globalNorm (applyGradClip (some c) gs) = c) ∧
    globalNorm (applyGradClip (some c) gs) ≤ c := by
  have hc0 : c ≠ 0 := ne_of_gt hc
  have hunch : globalNorm gs ≤ c → applyGradClip (some c) gs = gs := by
    intro hle
    rw [applyGradClip, if_neg hc0, clipByGlobalNorm, max_eq_right hle, div_self hc0]
    simp
  have hclip : c < globalNorm gs → globalNorm (applyGradClip (some c) gs) = c := by
    intro hlt
    have hn : 0 < globalNorm gs := lt_trans hc hlt
    rw [applyGradClip, if_neg hc0, clipByGlobalNorm, max_eq_left (le_of_lt hlt),
      globalNorm_map_mul, abs_of_pos (div_pos hc hn), mul_div_cancel₀ _ (ne_of_gt hn)]
  refine ⟨rfl, hunch, hclip, ?_⟩
  rcases le_or_lt (globalNorm gs) c with hle | hlt
  · rw [hunch hle]; exact hle
  · rw [hclip hlt]

/-- Witness for C6 at a concrete clip threshold. -/
theorem grad_clip_correct_witness :
    (0 : ℝ) < 3 ∧ globalNorm (applyGradClip (some 3) [3, 4]) ≤ 3 :=
  ⟨three_pos, (grad_clip_correct 3 [3, 4] three_pos).2.2.2⟩

theorem deriv_eq_zero_of_noTagPath (isTag : Nat → Bool) (env : Nat → ℚ) (v : Nat)
    (hv : isTag v = true) :
    ∀ e : Expr, noTagPath isTag e = true → deriv env v e = 0
  | .var w, h => by
      rw [deriv]
      rw [noTagPath, Bool.not_eq_true'] at h
      rw [if_neg (by intro hc; rw [hc, hv] at h; cases h)]
  | .const _, _ => rfl
  | .add a b, h => by
      rw [noTagPath, Bool.and_eq_true] at h
      rw [deriv, deriv_eq_zero_of_noTagPath isTag env v hv a h.1,
        deriv_eq_zero_of_noTagPath isTag env v hv b h.2, add_zero]
  | .mul a b, h => by
      rw [noTagPath, Bool.and_eq_true] at h
      rw [deriv, deriv_eq_zero_of_noTagPath isTag env v hv a h.1,
        deriv_eq_zero_of_noTagPath isTag env v hv b h.2]
      ring
  | .stopGrad _, _ => rfl

/-- C5: the tag-to-lemma bridge is gradient-stopped.  The bridge features
consume the tagger logits, yet have no gradient path into tagger parameters;
consequently the lemma and sense losses (built from the bridge and non-tagger
parameters) contribute zero gradient to any tagger parameter `v`, and the
derivative of the total loss with respect to `v` is exactly the derivative of
the tag loss alone. -/
theorem stop_gradient_bridge (isTag : Nat → Bool) (v : Nat)
    (tagOutputs w b lossTag lossLem lossSense : Expr) (wLem wSense : ℚ) (env : Nat → ℚ)
    (hv : isTag v = true)
    (hw : noTagPath isTag w = true) (hb : noTagPath isTag b = true)
    (hLem : noTagPath isTag lossLem = true) (hSense : noTagPath isTag lossSense = true) :
    noTagPath isTag (tagFeatures tagOutputs w b) = true ∧
    deriv env v (tagFeatures tagOutputs w b) = 0 ∧
    deriv env v (totalLoss lossTag lossLem lossSense wLem wSense) = deriv env v lossTag := by
  have hfeat : noTagPath isTag (tagFeatures tagOutputs w b) = true := by
    rw [tagFeatures]
    show (noTagPath isTag (.mul w (.stopGrad tagOutputs)) && noTagPath isTag b) = true
    rw [show noTagPath isTag (.mul w (.stopGrad tagOutputs))
        = (noTagPath isTag w && true) from rfl, hw, hb]
    rfl
  refine ⟨hfeat, deriv_eq_zero_of_noTagPath isTag env v hv _ hfeat, ?_⟩
  simp only [totalLoss, deriv, eval]
  rw [deriv_eq_zero_of_noTagPath isTag env v hv lossLem hLem,
    deriv_eq_zero_of_noTagPath isTag env v hv lossSense hSense]
  ring

/-- Witness for C5 at a concrete network wiring. -/
theorem stop_gradient_bridge_witness :
    ((fun n => n == 0) 0 = true ∧
      noTagPath (fun n => n == 0) (.var 1) = true ∧
      noTagPath (fun n => n == 0) (.const 2) = true ∧
      noTagPath (fun n => n == 0) (.mul (.var 1) (.stopGrad (.var 0))) = true ∧
      noTagPath (fun n => n == 0) (.const 1) = true) ∧
    deriv (fun n => (n : ℚ)) 0
        (totalLoss (.mul (.var 0) (.var 0)) (.mul (.var 1) (.stopGrad (.var 0)))
          (.const 1) 1 (1 / 10))
      = deriv (fun n => (n : ℚ)) 0 (.mul (.var 0) (.var 0)) :=
  ⟨⟨rfl, rfl, rfl, rfl, rfl⟩,
    (stop_gradient_bridge (fun n => n == 0) 0 (.var 0) (.var 1) (.const 2)
      (.mul (.var 0) (.var 0)) (.mul (.var 1) (.stopGrad (.var 0))) (.const 1)
      1 (1 / 10) (fun n => (n : ℚ)) rfl rfl rfl rfl rfl).2.2⟩

example : argmax [2, 5, 5, 1] = 1 := by decide

theorem getD_range_map {β : Type _} (n : Nat) (f : Nat → β) (i : Nat) (d : β) (h : i < n) :
    ((List.range n).map f).getD i d = f i := by
  rw [getD_map_lt f _ d 0 (by simpa using h), getD_range_lt _ h]

theorem argmax_lt_length : ∀ (xs : List ℚ), xs ≠ [] → argmax xs < xs.length
  | [], h => absurd rfl h
  | x :: rest, _ => by
    cases rest with
    | nil => simp [argmax]
    | cons y t =>
      rw [argmax]
      split
      · have := argmax_lt_length (y :: t) (by simp)
        simpa using this
      · simp

theorem argmax_is_max : ∀ (xs : List ℚ) (j : Nat), j < xs.length →
    xs.getD j 0 ≤ xs.getD (argmax xs) 0
  | [], j, h => by simp at h
  | x :: rest, j, h => by
    cases rest with
    | nil =>
      have hj : j = 0 := by simp at h; omega
      subst hj
      simp [argmax]
    | cons y t =>
      rw [argmax]
      split
      · rename_i hlt
        cases j with
        | zero => exact le_of_lt (by simpa using hlt)
        | succ k =>
          show (y :: t).getD k 0 ≤ (y :: t).getD (argmax (y :: t)) 0
          exact argmax_is_max (y :: t) k (by simpa using h)
      · rename_i hge
        cases j with
        | zero => exact le_refl _
        | succ k =>
          show (y :: t).getD k 0 ≤ x
          exact le_trans (argmax_is_max (y :: t) k (by simpa using h)) (not_lt.mp hge)

theorem argmax_first : ∀ (xs : List ℚ) (j : Nat), j < argmax xs →
    xs.getD j 0 < xs.getD (argmax xs) 0
  | [], j, h => by simp [argmax] at h
  | x :: rest, j, h => by
    cases rest with
    | nil => simp [argmax] at h
    | cons y t =>
      rw [argmax] at h ⊢
      split at h
      · rename_i hlt
        rw [if_pos hlt]
        cases j with
        | zero => simpa using hlt
        | succ k =>
          show (y :: t).getD k 0 < (y :: t).getD (argmax (y :: t)) 0
          exact argmax_first (y :: t) k (by omega)
      · omega

/-- C7: the tag classifier is multi-head.  For every sentence `s` and word `w`
the stacked prediction holds exactly one label per head; the label of head `i`
is `argmax` of that head's dense output layer applied to the word's
sentence-level RNN output, and `argmax` picks the smallest index attaining the
maximum of those logits. -/
theorem multi_head_tags (heads : List (List (List ℚ) × List ℚ))
    (rnn : List (List (List ℚ))) (s w : Nat)
    (hne : heads ≠ []) (hs : s < rnn.length) (hw : w < (rnn.getD s []).length) :
    (((tagPredictions heads rnn).getD s []).getD w []).length = heads.length ∧
    (∀ i, i < heads.length →
      (((tagPredictions heads rnn).getD s []).getD w []).getD i 0
        = argmax (denseLayer (heads.getD i ([], [])).1 (heads.getD i ([], [])).2
            ((rnn.getD s []).getD w []))) ∧
    (∀ i, i < heads.length →
      (denseLayer (heads.getD i ([], [])).1 (heads.getD i ([], [])).2
          ((rnn.getD s []).getD w []) ≠ [] →
        argmax (denseLayer (heads.getD i ([], [])).1 (heads.getD i ([], [])).2
          ((rnn.getD s []).getD w [])) <
        (denseLayer (heads.getD i ([], [])).1 (heads.getD i ([], [])).2
          ((rnn.getD s []).getD w [])).length) ∧
      (∀ j, j < (denseLayer (heads.getD i ([], [])).1 (heads.getD i ([], [])).2
          ((rnn.getD s []).getD w [])).length →
        (denseLayer (heads.getD i ([], [])).1 (heads.getD i ([], [])).2
            ((rnn.getD s []).getD w [])).getD j 0 ≤
        (denseLayer (heads.getD i ([], [])).1 (heads.getD i ([], [])).2
            ((rnn.getD s []).getD w [])).getD
          (argmax (denseLayer (heads.getD i ([], [])).1 (heads.getD i ([], [])).2
            ((rnn.getD s []).getD w []))) 0) ∧
      (∀ j, j < argmax (denseLayer (heads.getD i ([], [])).1 (heads.getD i ([], [])).2
          ((rnn.getD s []).getD w [])) →
        (denseLayer (heads.getD i ([], [])).1 (heads.getD i ([], [])).2
            ((rnn.getD s []).getD w [])).getD j 0 <
        (denseLayer (heads.getD i ([], [])).1 (heads.getD i ([], [])).2
            ((rnn.getD s []).getD w [])).getD
          (argmax (denseLayer (heads.getD i ([], [])).1 (heads.getD i ([], [])).2
            ((rnn.getD s []).getD w []))) 0)) := by
  obtain ⟨h0, hrest, rfl⟩ : ∃ h0 hrest, heads = h0 :: hrest := by
    cases heads with
    | nil => exact absurd rfl hne
    | cons a l => exact ⟨a, l, rfl⟩
  have hms : ((h0 :: hrest).map (fun h => headPredictions h rnn)).headD []
      = headPredictions h0 rnn := rfl
  have hlen1 : (headPredictions h0 rnn).length = rnn.length := by
    simp [headPredictions, headLogits]
  have hlen2 : ((headPredictions h0 rnn).getD s []).length = (rnn.getD s []).length := by
    rw [headPredictions, headLogits, List.map_map, getD_map_lt _ _ _ ([] : List (List ℚ)) hs]
    simp
  have hcell : ((tagPredictions (h0 :: hrest) rnn).getD s []).getD w []
      = ((h0 :: hrest).map (fun h => headPredictions h rnn)).map
          (fun m => (m.getD s []).getD w 0) := by
    rw [tagPredictions, stackLast, hms, hlen1, getD_range_map _ _ _ _ hs]
    show ((List.range ((headPredictions h0 rnn).getD s []).length).map _).getD w [] = _
    rw [hlen2, getD_range_map _ _ _ _ hw]
  have hheadcell : ∀ h : List (List ℚ) × List ℚ,
      ((headPredictions h rnn).getD s []).getD w 0
        = argmax (denseLayer h.1 h.2 ((rnn.getD s []).getD w [])) := by
    intro h
    have e1 : (headPredictions h rnn).getD s []
        = ((rnn.getD s []).map (fun x => denseLayer h.1 h.2 x)).map argmax := by
      rw [headPredictions, getD_map_lt _ _ ([] : List Nat) ([] : List (List ℚ))
        (by rw [headLogits, List.length_map]; exact hs)]
      rw [headLogits, getD_map_lt _ _ ([] : List (List ℚ)) ([] : List (List ℚ)) hs]
    rw [e1, List.map_map, getD_map_lt _ _ (0 : Nat) ([] : List ℚ) (by simpa using hw)]
    rfl
  refine ⟨?_, ?_, ?_⟩
  · rw [hcell]
    simp
  · intro i hi
    rw [hcell, List.map_map,
      getD_map_lt _ _ (0 : Nat) (([], []) : List (List ℚ) × List ℚ) (by simpa using hi)]
    exact hheadcell _
  · intro i hi
    refine ⟨fun hne2 => argmax_lt_length _ hne2, fun j hj => argmax_is_max _ j hj,
      fun j hj => argmax_first _ j hj⟩

/-- Witness for C7 at a concrete one-head network. -/
theorem multi_head_tags_witness :
    (([(([[1, 0]] : List (List ℚ)), ([0] : List ℚ))] : List (List (List ℚ) × List ℚ)) ≠ [] ∧
      0 < ([[[1, 2]]] : List (List (List ℚ))).length ∧
      0 < (([[[1, 2]]] : List (List (List ℚ))).getD 0 []).length) ∧
    (((tagPredictions [([[1, 0]], [0])] [[[1, 2]]]).getD 0 []).getD 0 []).length
      = ([(([[1, 0]] : List (List ℚ)), ([0] : List ℚ))]).length :=
  ⟨⟨List.cons_ne_nil _ _, by decide, by decide⟩,
    (multi_head_tags [([[1, 0]], [0])] [[[1, 2]]] 0 0 (List.cons_ne_nil _ _)
      (by decide) (by decide)).1⟩

theorem beamGE_total (score : List Nat → ℚ) : IsTotal (List Nat) (beamGE score) :=
  ⟨fun a b => le_total (score b) (score a)⟩

theorem beamGE_trans (score : List Nat → ℚ) : IsTrans (List Nat) (beamGE score) :=
  ⟨fun _ _ _ h1 h2 => le_trans h2 h1⟩

theorem topK_sorted (k : Nat) (score : List Nat → ℚ) (cands : List (List Nat)) :
    List.Sorted (beamGE score) (topK k score cands) := by
  haveI := beamGE_total score
  haveI := beamGE_trans score
  exact (List.sorted_insertionSort (beamGE score) cands).sublist (List.take_sublist _ _)

theorem beamRun_sorted (k V : Nat) (score : List Nat → ℚ) :
    ∀ n, List.Sorted (beamGE score) (beamRun k V score n)
  | 0 => List.sorted_singleton _
  | n + 1 => topK_sorted k score _

theorem sorted_head_max (score : List Nat → ℚ) (l : List (List Nat))
    (hs : List.Sorted (beamGE score) l) :
    ∀ b ∈ l, score b ≤ score (l.headD []) := by
  cases l with
  | nil => intro b hb; simp at hb
  | cons a t =>
    intro b hb
    rcases List.mem_cons.mp hb with rfl | hb2
    · exact le_refl _
    · exact List.rel_of_sorted_cons hs b hb2

theorem beamRun_mem_length (k V : Nat) (score : List Nat → ℚ) :
    ∀ n, ∀ b ∈ beamRun k V score n, b.length ≤ n
  | 0, b, hb => by
    simp only [beamRun, List.mem_singleton] at hb
    simp [hb]
  | n + 1, b, hb => by
    have hb2 : b ∈ expandBeams V (beamRun k V score n) := by
      haveI := beamGE_total score
      have h1 : b ∈ List.insertionSort (beamGE score) (expandBeams V (beamRun k V score n)) :=
        List.mem_of_mem_take hb
      exact (List.perm_insertionSort (beamGE score) _).mem_iff.mp h1
    simp only [expandBeams, List.mem_flatMap, List.mem_map, List.mem_range] at hb2
    obtain ⟨b0, hb0, c, _, rfl⟩ := hb2
    have := beamRun_mem_length k V score n b0 hb0
    simp
    omega

/-- C2: beam-search inference.  Every decoding step keeps exactly the top-`k`
(`k = beams`) one-character extensions of the current beams, ordered by score
(`beamStep` is a `take k` of a score-sorted permutation of the candidates, and
every kept beam scores at least every dropped one); the returned lemma is
beam index 0, which scores highest among the surviving beams; and the
recorded prediction length of row `w` is one plus the position of the first
`eow` in that beam (the row length plus one when `eow` never occurs). -/
theorem beam_search_lemmas (k V : Nat) (score : List Nat → ℚ)
    (beams : List (List Nat)) (n : Nat)
    (preds : List (List Int)) (eow : Int) (T w : Nat)
    (hrect : ∀ r ∈ preds, r.length = T) (hT : 0 < T) (hw : w < preds.length) :
    (∃ sorted, sorted.Perm (expandBeams V beams) ∧
      List.Sorted (beamGE score) sorted ∧
      beamStep k V score beams = sorted.take k ∧
      (∀ a ∈ beamStep k V score beams, ∀ b ∈ sorted.drop k, score b ≤ score a)) ∧
    (∀ b ∈ beamRun k V score n, score b ≤ score (beamBest k V score n)) ∧
    ((lemmaPredictionLengths preds eow).getD w 0
        = 1 + (preds.getD w []).findIdx (· == eow) ∧
      (∀ t, t < (preds.getD w []).findIdx (· == eow) → (preds.getD w []).getD t 0 ≠ eow) ∧
      ((preds.getD w []).findIdx (· == eow) < T →
        (preds.getD w []).getD ((preds.getD w []).findIdx (· == eow)) 0 = eow)) := by
  haveI := beamGE_total score
  haveI := beamGE_trans score
  obtain ⟨hlen, hres⟩ := find_first_eq preds eow T w hrect hT hw
  have hrowlen : (preds.getD w []).length = T := by
    apply hrect
    rw [getD_eq_getElem _ _ hw]
    exact List.getElem_mem hw
  refine ⟨⟨List.insertionSort (beamGE score) (expandBeams V beams),
    List.perm_insertionSort _ _, List.sorted_insertionSort _ _, rfl, ?_⟩, ?_, ?_, ?_, ?_⟩
  · intro a ha b hb
    exact (List.sorted_insertionSort (beamGE score) _).rel_of_mem_take_of_mem_drop ha hb
  · exact sorted_head_max score _ (beamRun_sorted k V score n)
  · rw [lemmaPredictionLengths, getD_map_lt _ _ 0 (0 : Nat) (by omega), hres]
  · intro t ht
    rw [getD_eq_getElem _ _ (by
      have := @List.findIdx_le_length Int (· == eow) (preds.getD w [])
      omega)]
    have := List.not_of_lt_findIdx ht
    simpa using this
  · intro hlt
    rw [getD_eq_getElem _ _ (by omega)]
    have := @List.findIdx_getElem Int (· == eow) (preds.getD w []) (by omega)
    simpa using this

/-- Witness for C2 at a concrete instance. -/
theorem beam_search_lemmas_witness :
    ((∀ r ∈ [[(3 : Int), 4]], r.length = 2) ∧ 0 < 2 ∧ 0 < ([[(3 : Int), 4]]).length) ∧
    (lemmaPredictionLengths [[(3 : Int), 4]] 3).getD 0 0
      = 1 + (([[(3 : Int), 4]]).getD 0 []).findIdx (· == 3) :=
  ⟨⟨by decide, by decide, by decide⟩,
    (beam_search_lemmas 2 2 (fun b => (b.length : ℚ)) [[]] 1 [[(3 : Int), 4]] 3 2 0
      (by decide) (by decide) (by decide)).2.2.1⟩

theorem greedyDecode_length (next : List Nat → Nat) (eow : Nat) :
    ∀ (fuel : Nat) (acc : List Nat),
      (greedyDecode next eow fuel acc).length ≤ acc.length + fuel
  | 0, acc => Nat.le_refl _
  | fuel + 1, acc => by
    rw [greedyDecode]
    split
    · simp
    · have := greedyDecode_length next eow fuel (acc ++ [next acc])
      simp at this
      omega

theorem le_foldr_max : ∀ (l : List Nat), ∀ x ∈ l, x ≤ l.foldr max 0
  | _ :: t, x, hx => by
    rcases List.mem_cons.mp hx with rfl | hx2
    · exact le_max_left _ _
    · exact le_trans (le_foldr_max t x hx2) (le_max_right _ _)

/-- C9: inference lemma decoding is bounded.  Both the greedy decode and the
beam-search decode run for at most `max(charseq_lens) + 10` steps, so every
predicted lemma character sequence is at most 10 characters longer than the
longest input word form of the batch. -/
theorem decode_bounded (next : List Nat → Nat) (eow : Nat) (charseq_lens : List Nat)
    (k V : Nat) (score : List Nat → ℚ) :
    (greedyDecode next eow (maxIterations charseq_lens) []).length
      ≤ charseq_lens.foldr max 0 + 10 ∧
    (∀ L ∈ charseq_lens, L ≤ charseq_lens.foldr max 0) ∧
    (∀ b ∈ beamRun k V score (maxIterations charseq_lens),
      b.length ≤ charseq_lens.foldr max 0 + 10) := by
  refine ⟨?_, le_foldr_max charseq_lens, ?_⟩
  · have := greedyDecode_length next eow (maxIterations charseq_lens) []
    simpa [maxIterations] using this
  · intro b hb
    have := beamRun_mem_length k V score (maxIterations charseq_lens) b hb
    simpa [maxIterations] using this

/-- Witness for C9 at a concrete batch. -/
theorem decode_bounded_witness :
    (2 ∈ ([2, 1] : List Nat)) ∧ 2 ≤ ([2, 1] : List Nat).foldr max 0 :=
  ⟨by decide,
    (decode_bounded (fun acc => acc.length) 5 [2, 1] 1 1 (fun _ => 0)).2.1 2 (by decide)⟩

example :
    predictLemmas ["a", "b", "<eow>"] ["", "x"] false [2] [[0, 2], [1, 0, 2]] [2, 3] [0, 1]
      = [["a", "ba-x"]] := by decide

/-- Counterexample to C1 as stated: `predict` does not return one tag string
per word form of each sentence.  In a batch whose first sentence has one word
form but is padded to two word slots, the decoded tag list of that sentence
has two entries. -/
theorem predict_per_word_counterexample :
    ¬ (∀ s, s < ([1, 2] : List Nat).length →
        (((predict ["T"] ["a", "b"] ["", "x"] false [1, 2] [[[0], [0]], [[0], [0]]]
            [[0], [0], [1]] [1, 1, 1] [0, 0, 0]).2).getD s []).length
          = ([1, 2] : List Nat).getD s 0) := by
  intro h
  exact absurd (h 0 (by decide)) (by decide)

theorem predictLemmas_length (alphabet sense_words : List String) (builtin : Bool) :
    ∀ (sentence_lens : List Nat) (lp : List (List Nat)) (lpl senses : List Nat),
      (predictLemmas alphabet sense_words builtin sentence_lens lp lpl senses).length
        = sentence_lens.length
  | [], _, _, _ => rfl
  | _ :: rest, lp, lpl, senses => by
    rw [predictLemmas, List.length_cons,
      predictLemmas_length alphabet sense_words builtin rest _ _ _]
    rfl

theorem predictLemmas_getD (alphabet sense_words : List String) (builtin : Bool) :
    ∀ (sentence_lens : List Nat) (lp : List (List Nat)) (lpl senses : List Nat) (s : Nat),
      s < sentence_lens.length →
      (predictLemmas alphabet sense_words builtin sentence_lens lp lpl senses).getD s []
        = (List.range (sentence_lens.getD s 0)).map (fun i =>
            wordLemma alphabet (lp.getD ((sentence_lens.take s).sum + i) [])
              (lpl.getD ((sentence_lens.take s).sum + i) 0)
            ++ senseSuffix sense_words builtin
                (senses.getD ((sentence_lens.take s).sum + i) 0))
  | [], _, _, _, s, hs => by simp at hs
  | len :: rest, lp, lpl, senses, 0, _ => by
    rw [predictLemmas]
    show (List.range len).map _ = _
    apply List.map_congr_left
    intro i _
    simp
  | len :: rest, lp, lpl, senses, s + 1, hs => by
    rw [predictLemmas]
    show (predictLemmas alphabet sense_words builtin rest (lp.drop len) (lpl.drop len)
      (senses.drop len)).getD s [] = _
    rw [predictLemmas_getD alphabet sense_words builtin rest _ _ _ s (by simpa using hs)]
    apply List.map_congr_left
    intro i _
    rw [getD_drop, getD_drop, getD_drop]
    have hoff : len + ((rest.take s).sum + i) = ((len :: rest).take (s + 1)).sum + i := by
      simp [List.sum_cons]
      omega
    rw [hoff]

/-- C1 amended: per batch, `predict` returns exactly one lemma string per
word form of each sentence — the lemma of word `i` of sentence `s` is the
join of the alphabet characters of the predicted ids before the terminating
end-of-word position (`wordLemma` at the flattened word offset), with
`-<sense word>` appended exactly when `builtin_sense` is off, the predicted
sense index is positive and the sense word is non-empty and not `"<pad>"` —
while the decoded tag list carries one vocabulary word per *padded* word slot
of each sentence (at least one per word form, more when the sentence is
shorter than the batch padding). -/
theorem predict_correct (words alphabet sense_words : List String) (builtin : Bool)
    (sentence_lens : List Nat) (tp : List (List (List Nat)))
    (lp : List (List Nat)) (lpl senses : List Nat) (s i : Nat)
    (hs : s < sentence_lens.length) (hi : i < sentence_lens.getD s 0) :
    (predict words alphabet sense_words builtin sentence_lens tp lp lpl senses).1.length
      = sentence_lens.length ∧
    ((predict words alphabet sense_words builtin sentence_lens tp lp lpl senses).1.getD
        s []).length = sentence_lens.getD s 0 ∧
    ((predict words alphabet sense_words builtin sentence_lens tp lp lpl senses).1.getD
        s []).getD i ""
      = wordLemma alphabet (lp.getD ((sentence_lens.take s).sum + i) [])
          (lpl.getD ((sentence_lens.take s).sum + i) 0)
        ++ senseSuffix sense_words builtin
            (senses.getD ((sentence_lens.take s).sum + i) 0) ∧
    (∀ sense, senseSuffix sense_words false sense
      = if 0 < sense ∧ sense_words.getD sense "" ≠ "" ∧ sense_words.getD sense "" ≠ "<pad>"
        then "-" ++ sense_words.getD sense "" else "") ∧
    (∀ sense, senseSuffix sense_words true sense = "") ∧
    (predict words alphabet sense_words builtin sentence_lens tp lp lpl senses).2.length
      = tp.length ∧
    (∀ s2 j, s2 < tp.length → j < (tp.getD s2 []).length →
      ((predict words alphabet sense_words builtin sentence_lens tp lp lpl senses).2.getD
          s2 []).length = (tp.getD s2 []).length ∧
      ((predict words alphabet sense_words builtin sentence_lens tp lp lpl senses).2.getD
          s2 []).getD j "" = words.getD (((tp.getD s2 []).getD j []).headD 0) "") := by
  have hrow := predictLemmas_getD alphabet sense_words builtin sentence_lens lp lpl senses
    s hs
  refine ⟨predictLemmas_length alphabet sense_words builtin sentence_lens lp lpl senses,
    ?_, ?_, fun sense => rfl, fun sense => rfl, by simp [predict, tagsDecode], ?_⟩
  · show ((predictLemmas alphabet sense_words builtin sentence_lens lp lpl senses).getD
      s []).length = _
    rw [hrow, List.length_map, List.length_range]
  · show ((predictLemmas alphabet sense_words builtin sentence_lens lp lpl senses).getD
      s []).getD i "" = _
    rw [hrow, getD_range_map _ _ _ _ hi]
  · intro s2 j hs2 hj
    constructor
    · show ((tagsDecode words tp).getD s2 []).length = _
      rw [tagsDecode, getD_map_lt _ _ ([] : List String) ([] : List (List Nat)) hs2,
        List.length_map]
    · show ((tagsDecode words tp).getD s2 []).getD j "" = _
      rw [tagsDecode, getD_map_lt _ _ ([] : List String) ([] : List (List Nat)) hs2,
        getD_map_lt _ _ "" ([] : List Nat) hj]

/-- Witness for the amended C1 at a concrete batch. -/
theorem predict_correct_witness :
    (0 < ([2] : List Nat).length ∧ 1 < ([2] : List Nat).getD 0 0) ∧
    ((predict ["T"] ["a", "b", "<eow>"] ["", "x"] false [2] [[[0], [0]]]
        [[0, 2], [1, 0, 2]] [2, 3] [0, 1]).1.getD 0 []).getD 1 ""
      = wordLemma ["a", "b", "<eow>"] ([[0, 2], [1, 0, 2]].getD (([2].take 0).sum + 1) [])
          ([2, 3].getD (([2].take 0).sum + 1) 0)
        ++ senseSuffix ["", "x"] false ([0, 1].getD (([2].take 0).sum + 1) 0) :=
  ⟨⟨by decide, by decide⟩,
    (predict_correct ["T"] ["a", "b", "<eow>"] ["", "x"] false [2] [[[0], [0]]]
      [[0, 2], [1, 0, 2]] [2, 3] [0, 1] 0 1 (by decide) (by decide)).2.2.1⟩

example :
    buildCT [['N', 'S'], ['V', 'S'], ['X']] 2
      = ([[['N'], ['V']], [['S']]], [(0, [0, 1, 1]), (1, [1, 2, 1])]) := by decide

example :
    encodeCT [['N', 'S'], ['V', 'S'], ['X']] 2 [] [[1, 2]] [[0, 0]] [[]]
      = [[[1, 2, 1], [2, 0, 0]]] := by decide

theorem buildCT_cache_inv (words : List (List Char)) (taglen : Nat) :
    ∀ p ∈ (buildCT words taglen).2, (p.2).headD 0 = p.1 := by
  rw [buildCT]
  generalize words.enum = l
  generalize hst : (List.replicate taglen ([] : List (List Char)),
    ([] : List (Nat × List Nat))) = st
  have hst0 : ∀ p ∈ st.2, (p.2).headD 0 = p.1 := by
    rw [← hst]
    intro p hp
    simp at hp
  clear hst
  induction l generalizing st with
  | nil => exact hst0
  | cons q l ih =>
    rw [List.foldl_cons]
    apply ih
    by_cases hq : q.2.length = taglen
    · rw [if_pos hq]
      intro p hp
      rcases List.mem_append.mp hp with hp1 | hp2
      · exact hst0 p hp1
      · rw [List.mem_singleton.mp hp2]
        rfl
    · rw [if_neg hq]
      exact hst0

theorem lookup_headD (k : Nat) :
    ∀ (l : List (Nat × List Nat)) (e : List Nat),
      (∀ p ∈ l, (p.2).headD 0 = p.1) → l.lookup k = some e → e.headD 0 = k
  | [], _, _, hl => by simp [List.lookup] at hl
  | (a, b) :: t, e, hinv, hl => by
    rw [List.lookup] at hl
    by_cases hk : k = a
    · rw [show (k == a) = true from by simpa using hk] at hl
      have hbe : some b = some e := hl
      obtain rfl : b = e := by injection hbe
      have hba : b.headD 0 = a := hinv (a, b) (by simp)
      rw [hba, hk]
    · rw [show (k == a) = false from by simpa using hk] at hl
      exact lookup_headD k t e (fun p hp => hinv p (List.mem_cons_of_mem _ hp)) hl

theorem encodeCell_headD (words : List (List Char)) (taglen : Nat)
    (trainAlphabet : List (List Char)) (tag_id : Nat) (seq : List Nat) :
    (encodeCell taglen (buildCT words taglen).1 (buildCT words taglen).2
        trainAlphabet tag_id seq).headD 0 = tag_id := by
  rw [encodeCell]
  cases hl : (buildCT words taglen).2.lookup tag_id with
  | none =>
    by_cases hq : seq.length = taglen <;> simp [hq]
  | some e =>
    exact lookup_headD tag_id _ e (buildCT_cache_inv words taglen) hl

/-- C10: `CharTags` encode/decode round trip.  `encode` writes the original
tag id into component 0 of every encoded entry — whether the id hits the
compositional cache or falls back to per-character encoding — `decode`
returns, for every position of any encoded matrix, the training tag
vocabulary word at component 0, and therefore `decode` composed with `encode`
is the per-position vocabulary lookup of the input tag ids. -/
theorem chartags_roundtrip (words : List (List Char)) (taglen : Nat)
    (trainAlphabet : List (List Char)) (tag_ids seq_ids : List (List Nat))
    (seqs : List (List Nat)) (M : List (List (List Nat))) (i j : Nat)
    (hi : i < tag_ids.length) (hj : j < (tag_ids.getD i []).length)
    (hi2 : i < seq_ids.length) (hj2 : j < (seq_ids.getD i []).length)
    (hiM : i < M.length) (hjM : j < (M.getD i []).length) :
    (((encodeCT words taglen trainAlphabet tag_ids seq_ids seqs).getD i []).getD
        j []).headD 0 = (tag_ids.getD i []).getD j 0 ∧
    ((decodeCT words M).getD i []).getD j []
      = words.getD (((M.getD i []).getD j []).headD 0) [] ∧
    ((decodeCT words
        (encodeCT words taglen trainAlphabet tag_ids seq_ids seqs)).getD i []).getD j []
      = words.getD ((tag_ids.getD i []).getD j 0) [] := by
  have hcell : ((encodeCT words taglen trainAlphabet tag_ids seq_ids seqs).getD i []).getD
      j []
      = encodeCell taglen (buildCT words taglen).1 (buildCT words taglen).2 trainAlphabet
          ((tag_ids.getD i []).getD j 0) (seqs.getD ((seq_ids.getD i []).getD j 0) []) := by
    rw [encodeCT, getD_zipWith_lt _ _ _ ([] : List (List Nat)) ([] : List Nat)
      ([] : List Nat) hi hi2, getD_zipWith_lt _ _ _ ([] : List Nat) 0 0 hj hj2]
  have hhead : (((encodeCT words taglen trainAlphabet tag_ids seq_ids seqs).getD i []).getD
      j []).headD 0 = (tag_ids.getD i []).getD j 0 := by
    rw [hcell, encodeCell_headD]
  have hdec : ∀ (N : List (List (List Nat))), i < N.length → j < (N.getD i []).length →
      ((decodeCT words N).getD i []).getD j []
        = words.getD (((N.getD i []).getD j []).headD 0) [] := by
    intro N hiN hjN
    rw [decodeCT, getD_map_lt _ _ ([] : List (List Char)) ([] : List (List Nat)) hiN,
      getD_map_lt _ _ ([] : List Char) ([] : List Nat) hjN]
  have hshape1 : i < (encodeCT words taglen trainAlphabet tag_ids seq_ids seqs).length := by
    rw [encodeCT, List.length_zipWith]
    exact lt_min hi hi2
  have hshape2 : j < ((encodeCT words taglen trainAlphabet tag_ids seq_ids seqs).getD
      i []).length := by
    rw [encodeCT, getD_zipWith_lt _ _ _ ([] : List (List Nat)) ([] : List Nat)
      ([] : List Nat) hi hi2, List.length_zipWith]
    exact lt_min hj hj2
  exact ⟨hhead, hdec M hiM hjM, by rw [hdec _ hshape1 hshape2, hhead]⟩

/-- Witness for C10 at a concrete tag vocabulary. -/
theorem chartags_roundtrip_witness :
    (0 < ([[1, 2]] : List (List Nat)).length ∧ 0 < (([[1, 2]] : List (List Nat)).getD 0 []).length ∧
      0 < ([[0, 0]] : List (List Nat)).length ∧ 0 < (([[0, 0]] : List (List Nat)).getD 0 []).length ∧
      1 < (([[1, 2]] : List (List Nat)).getD 0 []).length ∧
      1 < (([[0, 0]] : List (List Nat)).getD 0 []).length) ∧
    ((decodeCT [['N', 'S'], ['V', 'S'], ['X']]
        (encodeCT [['N', 'S'], ['V', 'S'], ['X']] 2 [] [[1, 2]] [[0, 0]] [[]])).getD
        0 []).getD 1 []
      = ([['N', 'S'], ['V', 'S'], ['X']] : List (List Char)).getD
          ((([[1, 2]] : List (List Nat)).getD 0 []).getD 1 0) [] :=
  ⟨⟨by decide, by decide, by decide, by decide, by decide, by decide⟩,
    (chartags_roundtrip [['N', 'S'], ['V', 'S'], ['X']] 2 [] [[1, 2]] [[0, 0]] [[]]
      (encodeCT [['N', 'S'], ['V', 'S'], ['X']] 2 [] [[1, 2]] [[0, 0]] [[]]) 0 1
      (by decide) (by decide) (by decide) (by decide) (by decide) (by decide)).2.2⟩

end LemmaTag
